import Mathlib

/-!
Verification development for the MNP-SVC DDSP vocoder
(`src/modules/vocoder.py`).

The DSP pipeline of `CombSubMinimumNoisedPhase`, its `_export` variant and
`NMPSFHiFi` is shallowly embedded over exact rationals: every float tensor
becomes a `List ℚ` (complex tensors become `List (ℚ × ℚ)` of
real/imaginary pairs), and the tensor operations of the source (cumsum,
roll, clamp, repeat-upsample, reshape, STFT framing, overlap-add) become
the corresponding list functions, for batch size 1.
External library capabilities that are not part of this repository's code
(torch's seeded uniform generator, the FFT backend, the transcendental
`exp`/`cos`/`sin` kernels, the Hann window values, and the neural
`unit2ctrl` predictor) are taken as explicit function parameters of the
embedded pipeline, exactly at the call boundary where the source invokes
them.
-/

namespace Vocoder

/-! ## Phase accumulator (`CombSubMinimumNoisedPhase.forward`, lines
404-412/427-439, and `NMPSFHiFi.forward`, lines 1161-1171) -/

/-- The double literal `3.141592653589793` the source uses for `pi`. -/
def piLit : ℚ := 3141592653589793 / 1000000000000000

/-- `torch.cumsum` along the sample axis, carrying the running sum. -/
def cumsumFrom (acc : ℚ) : List ℚ → List ℚ
  | [] => []
  | v :: rest => (acc + v) :: cumsumFrom (acc + v) rest

/-- `torch.cumsum(_, axis=1)` on a 1-D signal. -/
def cumsum (l : List ℚ) : List ℚ := cumsumFrom 0 l

/-- `torch.round`: round to the nearest integer with ties to even
(banker's rounding, as documented for PyTorch), used at lines 411/438. -/
def roundHalfEven (q : ℚ) : ℤ :=
  if q < (⌊q⌋ : ℚ) + 1/2 then ⌊q⌋
  else if (⌊q⌋ : ℚ) + 1/2 < q then ⌊q⌋ + 1
  else if ⌊q⌋ % 2 = 0 then ⌊q⌋ else ⌊q⌋ + 1

/-- Phase accumulation of `CombSubMinimumNoisedPhase.forward`
(lines 406-412): cumulative sum of per-sample `f0 / sampling_rate`, plus
`initial_phase / (2*pi)` when given, wrapped by subtracting `torch.round`
of the accumulated value. -/
def combSubWrappedPhase (samplingRate : ℚ) (f0 : List ℚ)
    (initialPhase : Option ℚ) : List ℚ :=
  let x := cumsum (f0.map (· / samplingRate))
  let x := match initialPhase with
    | some ip => x.map (· + ip / (2 * piLit))
    | none => x
  x.map (fun v => v - (roundHalfEven v : ℚ))

/-- Phase accumulation of `NMPSFHiFi.forward` (lines 1163-1171): the same
accumulation, wrapped by subtracting `torch.floor` instead. -/
def nmpsfWrappedPhase (samplingRate : ℚ) (f0 : List ℚ)
    (initialPhase : Option ℚ) : List ℚ :=
  let x := cumsum (f0.map (· / samplingRate))
  let x := match initialPhase with
    | some ip => x.map (· + ip / (2 * piLit))
    | none => x
  x.map (fun v => v - (⌊v⌋ : ℚ))

/-! ## Combtooth excitation (`forward`, lines 467-470 / 1219-1223) -/

/-- `tensor.roll(-1)` on a 1-D signal: every element moves one slot
towards index 0 and the first element wraps around to the end. -/
def rollNegOne (l : List ℚ) : List ℚ := l.drop 1 ++ l.take 1

/-- The combtooth excitation,
`torch.where(x.roll(-1) - x < 0., 1., 0.)` (line 469 / 1222). -/
def combtooth (x : List ℚ) : List ℚ :=
  List.zipWith (fun a b => if a - b < 0 then (1 : ℚ) else 0) (rollNegOne x) x

/-! ## Static noise buffer and tiling (`__init__` lines 295-306,
`forward` line 499) -/

/-- The static noise buffer generated at construction (lines 296-300):
`torch.rand([win_length*127], generator=gen) * 2.0 - 1.0` where `gen` is
a fresh `torch.Generator` seeded with `noise_seed`.  The seeded uniform
stream of the torch library is not part of this repository; it is modelled
as the parameter `torchRandStream : seed → index → value`, with the
`torch.rand` contract that every value lies in `[0, 1)`. -/
def staticNoiseBuffer (torchRandStream : ℕ → ℕ → ℚ)
    (noiseSeed winLength : ℕ) : List ℚ :=
  (List.range (winLength * 127)).map
    (fun i => torchRandStream noiseSeed i * 2 - 1)

/-- Repeat-and-truncate tiling of the static buffer (line 499):
`buf.repeat(len // buf.len + 1)[: len]`. -/
def tileToLength (buf : List ℚ) (len : ℕ) : List ℚ :=
  (List.flatten (List.replicate (len / buf.length + 1) buf)).take len

/-! ## Envelope modulator (`forward` lines 473-479 and 501-507, and
`NMPSFHiFi.forward` lines 1248-1262) -/

/-- `torch.clamp(v, min=-1., max=1.)`. -/
def clampUnit (v : ℚ) : ℚ := min 1 (max (-1) v)

/-- Nearest-neighbor upsampling by repetition:
`t.unsqueeze(-1).repeat(1, 1, ds).flatten(1)` repeats every element `ds`
consecutive times. -/
def upsampleRepeat (ds : ℕ) (l : List ℚ) : List ℚ :=
  (l.map (List.replicate ds)).flatten

/-- The envelope path of `CombSubMinimumNoisedPhase.forward`
(lines 474-479 for the harmonic envelope, 502-507 for the noise
envelope): clamp the predicted block-rate envelope into `[-1, 1]`,
upsample it by nearest-neighbor repetition, and multiply it elementwise
onto the time-domain excitation. -/
def combSubEnvApply (ds : ℕ) (env excitation : List ℚ) : List ℚ :=
  List.zipWith (· * ·) excitation (upsampleRepeat ds (env.map clampUnit))

/-- The harmonic-envelope path of `NMPSFHiFi.forward` (lines 1249-1259):
no clamping; the block-rate envelope is upsampled by the source's lazy
linear interpolation (repeat the last sample, per-step slopes, lerp
coefficients `arange(ds)/ds`, final division by `ds`). -/
def nmpsfHarmonicEnvUpsample (ds : ℕ) (env : List ℚ) : List ℚ :=
  let envExp := env ++ env.drop (env.length - 1)
  let slopes := List.zipWith (fun a b => a - b) (envExp.drop 1) envExp
  let envRep := upsampleRepeat ds env
  let slopesRep := upsampleRepeat ds slopes
  let repeatIdx := (List.range envRep.length).map
    (fun i => ((i % ds : ℕ) : ℚ) / (ds : ℚ))
  List.zipWith (· + ·) envRep
    (List.zipWith (fun s r => s * r / (ds : ℚ)) slopesRep repeatIdx)

/-! ## Control-bundle split map (`CombSubMinimumNoisedPhase.__init__`,
lines 231-266) -/

/-- `pred_filter_size = win_length // 2 + 1` (line 231). -/
def predFilterSize (winLength : ℕ) : ℕ := winLength / 2 + 1

/-- The construction-time configuration of `CombSubMinimumNoisedPhase`
(the constructor arguments fixed for the lifetime of the instance).
`useNoise` is the source's `not no_use_noise`. -/
structure CombSubConfig where
  samplingRate : ℚ
  blockSize : ℕ
  winLength : ℕ
  useNoise : Bool
  useNoiseEnv : Bool
  useHarmonicEnv : Bool
  useF0Offset : Bool
  addNoise : Bool
  useAddNoiseEnv : Bool
  usePhaseOffset : Bool
  useShortFilter : Bool
  useNoiseShortFilter : Bool
  noiseEnvSizeDownsamples : ℕ
  harmonicEnvSizeDownsamples : ℕ
  f0OffsetSizeDownsamples : ℕ

/-- The `split_map` dictionary handed to the `Unit2Control` predictor
(lines 237-266), as an association list in the source's insertion
order. -/
def splitMap (c : CombSubConfig) : List (String × ℕ) :=
  (if c.useNoise then
    (if c.useNoiseEnv then
      [(("noise_envelope_magnitude" : String),
        c.blockSize / c.noiseEnvSizeDownsamples)] else []) else [])
  ++ (if c.useHarmonicEnv then
    [(("harmonic_envelope_magnitude" : String),
      c.blockSize / c.harmonicEnvSizeDownsamples)] else [])
  ++ (if c.useF0Offset then
    [(("f0_offset" : String), c.blockSize / c.f0OffsetSizeDownsamples)]
    else [])
  ++ (if c.addNoise then
    [(("add_noise_magnitude" : String), predFilterSize c.winLength),
     (("add_noise_phase" : String), predFilterSize c.winLength)]
    ++ (if c.useAddNoiseEnv then
      [(("add_noise_envelope_magnitude" : String),
        c.blockSize / c.noiseEnvSizeDownsamples)] else []) else [])
  ++ (if c.usePhaseOffset then
    [(("phase_offset" : String), predFilterSize c.winLength)] else [])
  ++ (if c.useShortFilter then
    [(("short_harmonic_magnitude" : String), predFilterSize c.winLength * 4),
     (("short_harmonic_phase" : String), predFilterSize c.winLength * 4)]
    else [])
  ++ (if c.useNoise then
    (if c.useNoiseShortFilter then
      [(("short_noise_magnitude" : String), predFilterSize c.winLength * 4),
       (("short_noise_phase" : String), predFilterSize c.winLength * 4)]
      else []) else [])
  ++ [(("harmonic_magnitude" : String), predFilterSize c.winLength * 4),
      (("harmonic_phase" : String), predFilterSize c.winLength * 4),
      (("noise_magnitude" : String), predFilterSize c.winLength * 4),
      (("noise_phase" : String), predFilterSize c.winLength * 4)]

/-! ## STFT hop lengths and frame counts (`forward` lines 483-530) -/

/-- Hop length of the long-window STFT/ISTFT path,
`hop_length = self.block_size//4` (lines 526/537/554). -/
def hopLong (blockSize : ℕ) : ℕ := blockSize / 4

/-- Hop length of the optional short-window pass,
`hop_length = self.win_length//4//4` (lines 488/514). -/
def hopShort (winLength : ℕ) : ℕ := winLength / 4 / 4

/-- Row count of `t.reshape(B, -1, width)`. -/
def reshapeRows (total width : ℕ) : ℕ := total / width

/-- Number of per-frame complex filters built from a predicted control
tensor of per-frame width `pred_filter_size * 4` over `nFrames` frames:
the reshape to rows of `win_length//2 + 1` (line 447), plus the one
appended copy of the final row (line 448). -/
def srcFilterFrames (winLength nFrames : ℕ) : ℕ :=
  reshapeRows (nFrames * (predFilterSize winLength * 4))
    (predFilterSize winLength) + 1

/-- Number of analysis frames of `torch.stft(signal, n_fft, hop, ...,
center=True)`: the signal is padded by `n_fft//2` on both sides and
frames of length `n_fft` are taken every `hop` samples. -/
def stftNumFrames (len nfft hop : ℕ) : ℕ :=
  (len + 2 * (nfft / 2) - nfft) / hop + 1

/-! ## Minimum-phase filter builder: causal cepstrum fold
(`__init__` lines 314-341 and 344-369) -/

/-- `1e-7`, the additive guard of `torch.log(torch.fft.fft(...) + 1e-7)`
(lines 321-324 and 349-352). -/
def cepsLogEps : ℚ := 1 / 10000000

/-- The guarded argument handed to the complex `log`: the spectrum value
plus the real constant `1e-7`. -/
def guardedLogInput (spectrum : ℕ → ℚ × ℚ) : ℕ → ℚ × ℚ :=
  fun i => ((spectrum i).1 + cepsLogEps, (spectrum i).2)

/-- `ceps.imag[0] *= -1.` (line 329). -/
def cepsNegImagZero (c : ℕ → ℚ × ℚ) : ℕ → ℚ × ℚ :=
  fun i => if i = 0 then ((c i).1, -(c i).2) else c i

/-- `ceps.real[1:N//2] *= 2.` (line 330). -/
def cepsDoubleRealMid (N : ℕ) (c : ℕ → ℚ × ℚ) : ℕ → ℚ × ℚ :=
  fun i => if 1 ≤ i ∧ i < N / 2 then (2 * (c i).1, (c i).2) else c i

/-- `ceps.imag[1:N//2] *= -2.` (line 331). -/
def cepsNegDoubleImagMid (N : ℕ) (c : ℕ → ℚ × ℚ) : ℕ → ℚ × ℚ :=
  fun i => if 1 ≤ i ∧ i < N / 2 then ((c i).1, -2 * (c i).2) else c i

/-- `ceps.imag[N//2] *= -1.` (line 332). -/
def cepsNegImagNyquist (N : ℕ) (c : ℕ → ℚ × ℚ) : ℕ → ℚ × ℚ :=
  fun i => if i = N / 2 then ((c i).1, -(c i).2) else c i

/-- `ceps[N//2+1:] = 0.` (line 333). -/
def cepsZeroTail (N : ℕ) (c : ℕ → ℚ × ℚ) : ℕ → ℚ × ℚ :=
  fun i => if N / 2 + 1 ≤ i then (0, 0) else c i

/-- The causal fold of the length-`N` cepstrum: the five sequential
in-place index operations of lines 329-333 (identical at lines 357-361,
704-708, 735-739, 1102-1106 and 1129-1133), applied in source order. -/
def causalCepsFold (N : ℕ) (c : ℕ → ℚ × ℚ) : ℕ → ℚ × ℚ :=
  cepsZeroTail N (cepsNegImagNyquist N
    (cepsNegDoubleImagMid N (cepsDoubleRealMid N (cepsNegImagZero c))))

/-! ## Complex spectra and the frame-synchronous filter -/

/-- Complex multiplication on real/imaginary pairs; this is also the
`self.cmul` lambda of `CombSubMinimumNoisedPhase_export.__init__`
(lines 759-760). -/
def cmulQ (a b : ℚ × ℚ) : ℚ × ℚ :=
  (a.1 * b.1 - a.2 * b.2, a.1 * b.2 + a.2 * b.1)

/-- Complex addition on real/imaginary pairs. -/
def caddQ (a b : ℚ × ℚ) : ℚ × ℚ := (a.1 + b.1, a.2 + b.2)

/-- `t.reshape(B, -1, w)`: cut a flat list into rows of width `w`. -/
def chunkRows (w : ℕ) (l : List (ℚ × ℚ)) : List (List (ℚ × ℚ)) :=
  (List.range (l.length / w)).map (fun r => (l.drop (r * w)).take w)

/-- `torch.cat((rows, rows[:, -1:, :]), 1)`: append a copy of the final
row (lines 448/452). -/
def appendLastRow (rows : List (List (ℚ × ℚ))) : List (List (ℚ × ℚ)) :=
  rows ++ rows.drop (rows.length - 1)

/-- The windowed analysis frames of `torch.stft(signal, n_fft=nfft,
win_length=nfft, hop_length=hop, window, center=True,
pad_mode='constant')`: zero padding of `nfft//2` on both sides, one
frame of length `nfft` every `hop` samples, multiplied by the window. -/
def stftWindowedFrames (nfft hop : ℕ) (window signal : List ℚ) :
    List (List ℚ) :=
  let padded := List.replicate (nfft / 2) 0 ++ signal
    ++ List.replicate (nfft / 2) (0 : ℚ)
  (List.range (stftNumFrames signal.length nfft hop)).map
    (fun t => List.zipWith (· * ·) window ((padded.drop (t * hop)).take nfft))

/-- `torch.stft(..., return_complex=True)` with the FFT backend taken as
the parameter `rfftF` (the real-input transform producing `nfft//2 + 1`
bins), frames-major. -/
def stftSpec (rfftF : List ℚ → List (ℚ × ℚ)) (nfft hop : ℕ)
    (window signal : List ℚ) : List (List (ℚ × ℚ)) :=
  (stftWindowedFrames nfft hop window signal).map rfftF

/-- Frame-wise, bin-wise product of a spectrogram with a per-frame
complex filter (`spec * filter` after the source's `permute`). -/
def specMulFrames (spec filt : List (List (ℚ × ℚ))) :
    List (List (ℚ × ℚ)) :=
  List.zipWith (fun fr fl => List.zipWith cmulQ fr fl) spec filt

/-- Product of a spectrogram with one static complex filter broadcast
over all frames (`spec * static_filter.unsqueeze(-1).repeat(...)`,
line 530). -/
def specMulStatic (spec : List (List (ℚ × ℚ))) (filt : List (ℚ × ℚ)) :
    List (List (ℚ × ℚ)) :=
  spec.map (fun fr => List.zipWith cmulQ fr filt)

/-- Frame-wise, bin-wise sum of two spectrograms
(`signal_stft = combtooth_stft + noise_stft`, line 545). -/
def specAdd (a b : List (List (ℚ × ℚ))) : List (List (ℚ × ℚ)) :=
  List.zipWith (fun fa fb => List.zipWith caddQ fa fb) a b

/-- The spectrum handed to the inverse STFT by
`CombSubMinimumNoisedPhase.forward` (lines 544-547): the sum of the
filtered harmonic and noise spectrograms when noise is enabled, the
harmonic spectrogram alone otherwise. -/
def combSubSignalSpec (useNoise : Bool)
    (harmonicSpec : List (List (ℚ × ℚ)))
    (noiseSpec : Option (List (List (ℚ × ℚ)))) : List (List (ℚ × ℚ)) :=
  match useNoise, noiseSpec with
  | true, some ns => specAdd harmonicSpec ns
  | _, _ => harmonicSpec

/-- `torch.istft(spec, n_fft=nfft, win_length=nfft, hop_length=hop,
window, center=True)` with the inverse FFT backend taken as the
parameter `irfftF`: windowed overlap-add of the inverse frames,
normalized by the overlap-added squared window, trimmed by `nfft//2` on
the left, of output length `(n_frames - 1) * hop`. -/
def istftOLA (irfftF : List (ℚ × ℚ) → List ℚ) (nfft hop : ℕ)
    (window : List ℚ) (spec : List (List (ℚ × ℚ))) : List ℚ :=
  let frames := spec.map (fun fr => List.zipWith (· * ·) window (irfftF fr))
  let nFrames := spec.length
  (List.range ((nFrames - 1) * hop)).map (fun s =>
    let p := s + nfft / 2
    let num := ((List.range nFrames).map (fun t =>
      if t * hop ≤ p ∧ p < t * hop + nfft then
        (((frames.get? t).getD []).get? (p - t * hop)).getD 0
      else 0)).sum
    let den := ((List.range nFrames).map (fun t =>
      if t * hop ≤ p ∧ p < t * hop + nfft then
        ((window.get? (p - t * hop)).getD 0) ^ 2
      else 0)).sum
    num / den)

/-! ## The full `CombSubMinimumNoisedPhase.forward` pipeline
(lines 372-558) -/

/-- The control bundle returned by `self.unit2ctrl` for the modelled
branches of `CombSubMinimumNoisedPhase.forward`. -/
structure CombSubCtrls where
  harmonic_magnitude : List ℚ
  harmonic_phase : List ℚ
  noise_magnitude : List ℚ
  noise_phase : List ℚ
  noise_envelope_magnitude : List ℚ
  harmonic_envelope_magnitude : List ℚ
  f0_offset : List ℚ

/-- One per-frame complex filter built from predicted magnitude/phase
controls: `torch.exp(mag + 1j*phase).reshape(B, -1, win_length//2+1)`
followed by the append of the final row (lines 447-448/451-452), with
the complex exponential kernel taken as the parameter `cexpF`. -/
def buildPredFilter (cexpF : ℚ → ℚ → ℚ × ℚ) (winLength : ℕ)
    (mag phs : List ℚ) : List (List (ℚ × ℚ)) :=
  appendLastRow (chunkRows (predFilterSize winLength)
    (List.zipWith cexpF mag phs))

/-- `CombSubMinimumNoisedPhase.forward` (lines 372-558), batch size 1,
under `infer=True` (exact arithmetic models the double-precision
cumsum).

External parameters: `rfftF`/`irfftF` are torch's real FFT backend,
`cexpF` the complex exponential kernel, `window` the cached
`torch.hann_window(win_length)` buffer, `staticFreqMinphaseWsinc` the
constructor-cached minimum-phase filter, `staticNoise` the cached
`static_noise_t` buffer, and `unit2ctrl` the external neural predictor
applied to the per-frame phases (its other inputs — unit, F0 and volume
frames, speaker conditioning — are fixed inputs folded into the
function).

`jitterMult` models the F0 input-variance step of lines 402-403:
the source draws `f0_variance = torch.randn_like(f0) * v` from the
ambient RNG and multiplies `f0` by
`2.**(-v/12.) * 2.**(f0_variance/12.)`; `jitterMult` is the list of the
realized per-sample values of that positive factor (identically `1`
exactly when `f0_input_variance = 0`, since then the exponent is `0`
for every draw).

The short-window spectra of lines 483-495 and 509-520 are computed by
the source but never folded into `signal_stft` (lines 544-547); being
dead values, they are omitted here. -/
def combSubForward (cfg : CombSubConfig)
    (rfftF : List ℚ → List (ℚ × ℚ)) (irfftF : List (ℚ × ℚ) → List ℚ)
    (cexpF : ℚ → ℚ → ℚ × ℚ) (window : List ℚ)
    (staticFreqMinphaseWsinc : List (ℚ × ℚ)) (staticNoise : List ℚ)
    (unit2ctrl : List ℚ → CombSubCtrls)
    (f0Frames : List ℚ) (jitterMult : List ℚ)
    (initialPhase : Option ℚ) : List ℚ :=
  let bs := cfg.blockSize
  let wl := cfg.winLength
  let f0 := upsampleRepeat bs f0Frames
  let f0 := List.zipWith (· * ·) f0 jitterMult
  let x := combSubWrappedPhase cfg.samplingRate f0 initialPhase
  let phaseFrames := (List.range (x.length / bs)).map
    (fun t => 2 * piLit * ((x.get? (t * bs)).getD 0))
  let ctrls := unit2ctrl phaseFrames
  let f0 := if cfg.useF0Offset then
      List.zipWith (· + ·) f0
        (upsampleRepeat cfg.f0OffsetSizeDownsamples
          (ctrls.f0_offset.map (fun v => (v - 2) * (1/2))))
    else f0
  let x := combSubWrappedPhase cfg.samplingRate f0 initialPhase
  let srcFilter := buildPredFilter cexpF wl
    ctrls.harmonic_magnitude ctrls.harmonic_phase
  let noiseFilter := buildPredFilter cexpF wl
    ctrls.noise_magnitude ctrls.noise_phase
  let ct := combtooth x
  let ct := if cfg.useHarmonicEnv then
      combSubEnvApply cfg.harmonicEnvSizeDownsamples
        ctrls.harmonic_envelope_magnitude ct
    else ct
  let hop := hopLong bs
  let ctSpec := specMulStatic
    (specMulFrames (stftSpec rfftF wl hop window ct) srcFilter)
    staticFreqMinphaseWsinc
  let noiseSpec := if cfg.useNoise then
      let noiseT := tileToLength staticNoise ct.length
      let noiseT := if cfg.useNoiseEnv then
          combSubEnvApply cfg.noiseEnvSizeDownsamples
            ctrls.noise_envelope_magnitude noiseT
        else noiseT
      some (specMulFrames (stftSpec rfftF wl hop window noiseT) noiseFilter)
    else none
  istftOLA irfftF wl hop window (combSubSignalSpec cfg.useNoise ctSpec noiseSpec)

/-! ## The `CombSubMinimumNoisedPhase_export.forward` pipeline
(lines 763-927) -/

/-- The control bundle consumed by the export variant's modelled
branches. -/
structure ExportCtrls where
  harmonic_magnitude : List ℚ
  harmonic_phase : List ℚ
  noise_magnitude : List ℚ
  noise_phase : List ℚ
  noise_envelope_magnitude : List ℚ
  harmonic_envelope_magnitude : List ℚ

/-- A split-apart predicted filter as the export variant builds it
(lines 833-839): real part `exp(mag) * cos(phase)`, imaginary part
`exp(mag) * sin(phase)`, reshaped to rows of `win_length//2 + 1` with
the final row appended, with the transcendental kernels as the
parameters `expF`, `cosF`, `sinF`. -/
def buildExportFilter (expF cosF sinF : ℚ → ℚ) (winLength : ℕ)
    (mag phs : List ℚ) : List (List (ℚ × ℚ)) :=
  appendLastRow (chunkRows (predFilterSize winLength)
    (List.zipWith (fun m p => (expF m * cosF p, expF m * sinF p)) mag phs))

/-- `CombSubMinimumNoisedPhase_export.forward` (lines 763-927), batch
size 1.  The `self.stft` transform pair (constructed with
`hop_length=self.block_size`, lines 752-757) is taken as the parameters
`stftT`/`istftT`.  The F0 variance and initial-phase steps are commented
out in this variant (lines 789-798), so the phase is the deterministic
round-wrapped cumsum.  The harmonic branch is computed — the combtooth
STFT is multiplied by the static minimum-phase filter and by the
predicted harmonic filter (lines 900-911) — but only the filtered noise
spectrogram is handed to `self.stft.inverse` (lines 921-924). -/
def combSubExportForward
    (stftT : List ℚ → List (List (ℚ × ℚ)))
    (istftT : List (List (ℚ × ℚ)) → List ℚ)
    (expF cosF sinF : ℚ → ℚ)
    (samplingRate : ℚ) (blockSize winLength : ℕ)
    (useHarmonicEnv useNoiseEnv : Bool)
    (harmonicEnvDs noiseEnvDs : ℕ)
    (staticFreqMinphaseWsinc : List (ℚ × ℚ)) (staticNoise : List ℚ)
    (unit2ctrl : List ℚ → ExportCtrls)
    (f0Frames : List ℚ) : List ℚ :=
  let f0 := upsampleRepeat blockSize f0Frames
  let x := combSubWrappedPhase samplingRate f0 none
  let phaseFrames := (List.range (x.length / blockSize)).map
    (fun t => 2 * piLit * ((x.get? (t * blockSize)).getD 0))
  let ctrls := unit2ctrl phaseFrames
  let srcFilter := buildExportFilter expF cosF sinF winLength
    ctrls.harmonic_magnitude ctrls.harmonic_phase
  let noiseFilter := buildExportFilter expF cosF sinF winLength
    ctrls.noise_magnitude ctrls.noise_phase
  let ct := combtooth x
  let ct := if useHarmonicEnv then
      combSubEnvApply harmonicEnvDs ctrls.harmonic_envelope_magnitude ct
    else ct
  let noiseT := tileToLength staticNoise ct.length
  let noiseT := if useNoiseEnv then
      combSubEnvApply noiseEnvDs ctrls.noise_envelope_magnitude noiseT
    else noiseT
  let _combtoothFiltered := specMulFrames
    (specMulStatic (stftT ct) staticFreqMinphaseWsinc) srcFilter
  let noiseSpec := specMulFrames (stftT noiseT) noiseFilter
  istftT noiseSpec

/-! ## Exact 4-point FFT backend (used to run the pipeline at
`win_length = 4`, where torch's real FFT has exact rational values) -/

/-- The 4-point real-input DFT (`torch.fft.rfft` at size 4): bins
`X_k = sum_n x_n * exp(-2*pi*i*k*n/4)` for `k = 0, 1, 2`. -/
def rfft4 (x : List ℚ) : List (ℚ × ℚ) :=
  let a := (x.get? 0).getD 0
  let b := (x.get? 1).getD 0
  let c := (x.get? 2).getD 0
  let d := (x.get? 3).getD 0
  [(a + b + c + d, 0), (a - c, d - b), (a - b + c - d, 0)]

/-- The 4-point inverse real DFT (`torch.fft.irfft` at size 4) of a
one-sided spectrum `[X0, X1, X2]`, using the Hermitian extension (the
imaginary parts of the DC and Nyquist bins do not contribute). -/
def irfft4 (sp : List (ℚ × ℚ)) : List ℚ :=
  let x0 := (sp.get? 0).getD (0, 0)
  let x1 := (sp.get? 1).getD (0, 0)
  let x2 := (sp.get? 2).getD (0, 0)
  [(x0.1 + 2 * x1.1 + x2.1) / 4,
   (x0.1 - 2 * x1.2 - x2.1) / 4,
   (x0.1 - 2 * x1.1 + x2.1) / 4,
   (x0.1 + 2 * x1.2 - x2.1) / 4]

/-- `torch.hann_window(4)`: exactly `[0, 1/2, 1, 1/2]`. -/
def hann4 : List ℚ := [0, 1/2, 1, 1/2]

/-- A complex-exponential kernel used at concrete instances where every
evaluated argument is `(0, 0)`; it agrees with `torch.exp` there
(`exp(0 + 0j) = 1`). -/
def cexpOne : ℚ → ℚ → ℚ × ℚ := fun _ _ => (1, 0)

/-! ## `load_model` (lines 14-107) -/

/-- The two model-type tags `load_model` accepts. -/
inductive LoadedModelKind
  | combSubMinimumNoisedPhase
  | nmpsfHiFi
deriving DecidableEq

/-- The model-type dispatch of `load_model` (lines 25-85): construct the
synthesizer named by `args.model.type`, or raise
`ValueError(f" [x] Unknown Model: {args.model.type}")` for any other
tag. -/
def loadModelKind (modelType : String) : Except String LoadedModelKind :=
  if modelType = ("CombSubMinimumNoisedPhase" : String) then
    .ok .combSubMinimumNoisedPhase
  else if modelType = ("NMPSFHiFi" : String) then .ok .nmpsfHiFi
  else .error ((" [x] Unknown Model: " : String) ++ modelType)

/-- The speaker-info side-file handling of `load_model` (lines 97-105),
as the pair (warning printed, spk_info loaded): when speaker embedding
is enabled and `spk_info.npz` exists it is loaded; when it is absent a
warning is printed and `spk_info` is `None`; without speaker embedding
`spk_info` is `None` silently. -/
def loadSpkOutcome (useSpeakerEmbed spkFileExists : Bool) : Bool × Bool :=
  if useSpeakerEmbed then
    if spkFileExists then (false, true) else (true, false)
  else (false, false)

/-! ## Concrete instances used at witnesses and counterexamples -/

/-- A minimal concrete configuration: sampling rate 4 Hz,
`block_size = win_length = 4` (where the real FFT is exact over ℚ), all
optional stages disabled and noise disabled (`no_use_noise=True`). -/
def toyConfig : CombSubConfig :=
  { samplingRate := 4, blockSize := 4, winLength := 4,
    useNoise := false, useNoiseEnv := false, useHarmonicEnv := false,
    useF0Offset := false, addNoise := false, useAddNoiseEnv := false,
    usePhaseOffset := false, useShortFilter := false,
    useNoiseShortFilter := false,
    noiseEnvSizeDownsamples := 4, harmonicEnvSizeDownsamples := 4,
    f0OffsetSizeDownsamples := 1 }

/-- A constant predictor that emits zero log-magnitudes and zero phases
(one block frame of `pred_filter_size * 4 = 12` zeros each); at these
values `exp(0 + 0j) = 1` and the predicted filters are all-pass. -/
def toyPredict : List ℚ → CombSubCtrls :=
  fun _ => ⟨List.replicate 12 0, List.replicate 12 0, [], [], [], [], []⟩

/-- An all-pass value for the cached static minimum-phase filter (three
bins at `win_length = 4`), a free parameter of the embedded pipeline
since the true cached value involves transcendental operations. -/
def toyMinphase : List (ℚ × ℚ) := [(1, 0), (1, 0), (1, 0)]

/-- A configuration for the split-map claims: `win_length = 8`
(`pred_filter_size = 5`), `block_size = 512`, noise path and noise
envelope enabled. -/
def splitMapSampleConfig : CombSubConfig :=
  { samplingRate := 44100, blockSize := 512, winLength := 8,
    useNoise := true, useNoiseEnv := true, useHarmonicEnv := false,
    useF0Offset := false, addNoise := false, useAddNoiseEnv := false,
    usePhaseOffset := false, useShortFilter := false,
    useNoiseShortFilter := false,
    noiseEnvSizeDownsamples := 4, harmonicEnvSizeDownsamples := 4,
    f0OffsetSizeDownsamples := 1 }

/-! ## Helper lemmas -/

theorem cumsumFrom_length (acc : ℚ) (l : List ℚ) :
    (cumsumFrom acc l).length = l.length := by
  induction l generalizing acc with
  | nil => rfl
  | cons v rest ih => simp [cumsumFrom, ih]

theorem cumsum_length (l : List ℚ) : (cumsum l).length = l.length :=
  cumsumFrom_length 0 l

theorem cumsumFrom_get (acc : ℚ) (l : List ℚ) (i : ℕ) (hi : i < l.length) :
    (cumsumFrom acc l).get ⟨i, by rw [cumsumFrom_length]; exact hi⟩ =
      acc + (l.take (i + 1)).sum := by
  induction l generalizing acc i with
  | nil => simp at hi
  | cons v rest ih =>
    cases i with
    | zero => simp [cumsumFrom]
    | succ j =>
      have hj : j < rest.length := by simp at hi; omega
      have := ih (acc + v) j hj
      simp only [cumsumFrom, List.get_eq_getElem, List.getElem_cons_succ] at this ⊢
      rw [this]
      simp [List.take_succ_cons]
      ring

theorem cumsum_get (l : List ℚ) (i : ℕ) (hi : i < l.length) :
    (cumsum l).get ⟨i, by rw [cumsum_length]; exact hi⟩ =
      (l.take (i + 1)).sum := by
  have := cumsumFrom_get 0 l i hi
  simpa [cumsum] using this

theorem cumsum_get_succ (l : List ℚ) (i : ℕ) (hi : i + 1 < l.length) :
    (cumsum l).get ⟨i + 1, by rw [cumsum_length]; exact hi⟩ =
      (cumsum l).get ⟨i, by rw [cumsum_length]; omega⟩ + l.get ⟨i + 1, hi⟩ := by
  rw [cumsum_get l (i + 1) hi, cumsum_get l i (by omega)]
  rw [List.sum_take_succ l (i + 1) hi]
  simp [List.get_eq_getElem]

theorem combSubWrappedPhase_length (sr : ℚ) (f0 : List ℚ) (ip : Option ℚ) :
    (combSubWrappedPhase sr f0 ip).length = f0.length := by
  cases ip <;> simp [combSubWrappedPhase, cumsum_length]

theorem combSubWrappedPhase_get_none (sr : ℚ) (f0 : List ℚ) (j : ℕ)
    (hj : j < f0.length) :
    (combSubWrappedPhase sr f0 none).get
        ⟨j, by rw [combSubWrappedPhase_length]; exact hj⟩ =
      (cumsum (f0.map (· / sr))).get
          ⟨j, by rw [cumsum_length]; simpa using hj⟩ -
        (roundHalfEven ((cumsum (f0.map (· / sr))).get
          ⟨j, by rw [cumsum_length]; simpa using hj⟩) : ℚ) := by
  simp [combSubWrappedPhase, List.get_eq_getElem]

theorem rollNegOne_length (l : List ℚ) : (rollNegOne l).length = l.length := by
  simp [rollNegOne]; omega

theorem combtooth_length (x : List ℚ) : (combtooth x).length = x.length := by
  simp [combtooth, rollNegOne]; omega

theorem rollNegOne_getElem? (x : List ℚ) (i : ℕ) (hi : i < x.length) :
    (rollNegOne x)[i]? = x[(i + 1) % x.length]? := by
  unfold rollNegOne
  rw [List.getElem?_append]
  rcases Nat.lt_or_ge (i + 1) x.length with h | h
  · rw [if_pos (by simp; omega), List.getElem?_drop, Nat.mod_eq_of_lt h,
      Nat.add_comm]
  · have hlen : x.length = i + 1 := by omega
    rw [if_neg (by simp; omega)]
    have hd : (x.drop 1).length = i := by simp; omega
    rw [hd, Nat.sub_self]
    have hmod : (i + 1) % x.length = 0 := by rw [hlen]; simp
    rw [hmod]
    rcases x with _ | ⟨a, t⟩
    · simp at hi
    · simp

theorem combtooth_get (x : List ℚ) (i : ℕ) (hi : i < x.length) :
    (combtooth x).get ⟨i, by rw [combtooth_length]; exact hi⟩ =
      if x.get ⟨(i + 1) % x.length, Nat.mod_lt _ (by omega)⟩ < x.get ⟨i, hi⟩
        then 1 else 0 := by
  have hm : (i + 1) % x.length < x.length := Nat.mod_lt _ (by omega)
  have h1 : (combtooth x)[i]? =
      some ((combtooth x).get ⟨i, by rw [combtooth_length]; exact hi⟩) := by
    rw [List.getElem?_eq_getElem (by rw [combtooth_length]; exact hi)]
    simp [List.get_eq_getElem]
  have h2 : (combtooth x)[i]? =
      some (if x.get ⟨(i + 1) % x.length, hm⟩ < x.get ⟨i, hi⟩
        then (1 : ℚ) else 0) := by
    unfold combtooth
    rw [List.getElem?_zipWith', rollNegOne_getElem? x i hi,
      List.getElem?_eq_getElem hm, List.getElem?_eq_getElem hi]
    simp [List.get_eq_getElem, sub_neg]
  rw [h1] at h2
  exact Option.some.inj h2

theorem roundHalfEven_bounds (q : ℚ) :
    -(1/2) ≤ q - (roundHalfEven q : ℚ) ∧ q - (roundHalfEven q : ℚ) ≤ 1/2 := by
  have h0 : (⌊q⌋ : ℚ) ≤ q := Int.floor_le q
  have h1 : q < (⌊q⌋ : ℚ) + 1 := Int.lt_floor_add_one q
  unfold roundHalfEven
  split_ifs <;> push_cast <;> constructor <;> linarith

theorem roundHalfEven_step (s d : ℚ) (hd0 : 0 < d) (hd1 : d < 1) :
    roundHalfEven (s + d) = roundHalfEven s ∨
    roundHalfEven (s + d) = roundHalfEven s + 1 := by
  obtain ⟨a1, a2⟩ := roundHalfEven_bounds s
  obtain ⟨b1, b2⟩ := roundHalfEven_bounds (s + d)
  have c1 : ((roundHalfEven s : ℤ) : ℚ) - 1 <
      ((roundHalfEven (s + d) : ℤ) : ℚ) := by linarith
  have c2 : ((roundHalfEven (s + d) : ℤ) : ℚ) <
      ((roundHalfEven s : ℤ) : ℚ) + 2 := by linarith
  have d1 : roundHalfEven s - 1 < roundHalfEven (s + d) := by exact_mod_cast c1
  have d2 : roundHalfEven (s + d) < roundHalfEven s + 2 := by exact_mod_cast c2
  omega

theorem wrapped_decrease_iff (s d : ℚ) (hd0 : 0 < d) (hd1 : d < 1) :
    ((s + d) - (roundHalfEven (s + d) : ℚ) < s - (roundHalfEven s : ℚ)) ↔
    roundHalfEven (s + d) = roundHalfEven s + 1 := by
  rcases roundHalfEven_step s d hd0 hd1 with h | h <;> rw [h] <;> push_cast <;>
    constructor <;> intro hx
  · linarith
  · omega
  · rfl
  · linarith

/-! ## C1: combtooth impulse characterization -/

/-- C1: for every wrapped-phase sequence `x`, the combtooth excitation is
`1` exactly at the indices where the phase one sample forward (under the
circular roll, so the final sample compares against the first) is smaller
than the phase at the index, and `0` elsewhere; and at every interior
sample of a phase accumulated from per-sample steps `f0/sr ∈ (0, 1)`, an
impulse fires exactly when the rounded accumulated phase increments by
one — one unit impulse per pitch period. -/
theorem combtooth_impulse_characterization
    (x : List ℚ) (i : ℕ) (hi : i < x.length) :
    (combtooth x).length = x.length ∧
    ((combtooth x).get ⟨i, by rw [combtooth_length]; exact hi⟩ =
      if x.get ⟨(i + 1) % x.length, Nat.mod_lt _ (by omega)⟩ < x.get ⟨i, hi⟩
        then 1 else 0) ∧
    (i + 1 = x.length →
      (combtooth x).get ⟨i, by rw [combtooth_length]; exact hi⟩ =
        if x.get ⟨0, by omega⟩ < x.get ⟨i, hi⟩ then 1 else 0) ∧
    (∀ (sr : ℚ) (f0 : List ℚ) (j : ℕ) (hj : j + 1 < f0.length)
      (hstep : ∀ k (hk : k < f0.length),
        0 < f0.get ⟨k, hk⟩ / sr ∧ f0.get ⟨k, hk⟩ / sr < 1),
      ((combtooth (combSubWrappedPhase sr f0 none)).get
          ⟨j, by rw [combtooth_length, combSubWrappedPhase_length]; omega⟩
            = 1 ↔
        roundHalfEven ((cumsum (f0.map (· / sr))).get
            ⟨j + 1, by rw [cumsum_length]; simpa using hj⟩) =
          roundHalfEven ((cumsum (f0.map (· / sr))).get
            ⟨j, by rw [cumsum_length]; simp; omega⟩) + 1)) := by
  refine ⟨combtooth_length x, combtooth_get x i hi, ?_, ?_⟩
  · intro hlast
    rw [combtooth_get x i hi]
    have hz : (i + 1) % x.length = 0 := by rw [hlast]; simp
    simp only [hz]
  · intro sr f0 j hj hstep
    have hxlen : (combSubWrappedPhase sr f0 none).length = f0.length :=
      combSubWrappedPhase_length sr f0 none
    have hjx : j < (combSubWrappedPhase sr f0 none).length := by omega
    rw [combtooth_get _ j hjx]
    have hmod : (j + 1) % (combSubWrappedPhase sr f0 none).length = j + 1 := by
      rw [hxlen]; exact Nat.mod_eq_of_lt hj
    simp only [hmod]
    have hj1 : j + 1 < f0.length := hj
    have hg1 := combSubWrappedPhase_get_none sr f0 (j + 1) hj1
    have hg0 := combSubWrappedPhase_get_none sr f0 j (by omega)
    rw [hg1, hg0]
    have hsucc := cumsum_get_succ (f0.map (· / sr)) j (by simpa using hj)
    have hd : (f0.map (· / sr)).get ⟨j + 1, by simpa using hj⟩ =
        f0.get ⟨j + 1, hj⟩ / sr := by
      simp [List.get_eq_getElem]
    rw [hd] at hsucc
    rw [hsucc]
    obtain ⟨hd0, hd1⟩ := hstep (j + 1) hj
    set sj := (cumsum (f0.map (· / sr))).get
      ⟨j, by rw [cumsum_length]; simp; omega⟩
    set dv := f0.get ⟨j + 1, hj⟩ / sr
    by_cases hc : (sj + dv) - (roundHalfEven (sj + dv) : ℚ) <
        sj - (roundHalfEven sj : ℚ)
    · rw [if_pos hc]
      simp only [true_iff, eq_self_iff_true]
      exact (wrapped_decrease_iff sj dv hd0 hd1).mp hc
    · rw [if_neg hc]
      constructor
      · intro h01; norm_num at h01
      · intro hj'
        exact absurd ((wrapped_decrease_iff sj dv hd0 hd1).mpr hj') hc

/-- C1 witness: the characterization evaluated at the wrapped phase
`[1/4, 1/2, -1/4, 0]` (final sample) and at the phase accumulated from
`f0 = [1,1,1,1]` at 4 Hz (interior sample, no impulse and no round
increment). -/
theorem combtooth_impulse_characterization_witness :
    (combtooth [(1:ℚ)/4, 1/2, -1/4, 0]).length = 4 ∧
    (combtooth [(1:ℚ)/4, 1/2, -1/4, 0]).get
      ⟨3, by rw [combtooth_length]; norm_num⟩ = 0 ∧
    ¬ ((combtooth (combSubWrappedPhase 4 [1, 1, 1, 1] none)).get
      ⟨0, by simp [combtooth_length, combSubWrappedPhase_length]⟩ = 1) := by
  have T := combtooth_impulse_characterization [(1:ℚ)/4, 1/2, -1/4, 0] 3
    (by norm_num)
  refine ⟨T.1, ?_, ?_⟩
  · have h2 := T.2.2.1 (by norm_num)
    rw [h2]
    norm_num [List.get_eq_getElem]
  · have I := T.2.2.2 4 [1, 1, 1, 1] 0 (by norm_num)
      (by intro k hk
          have hk4 : k < 4 := by simpa using hk
          interval_cases k <;> norm_num [List.get_eq_getElem])
    intro h1
    have hr := I.mp h1
    norm_num [cumsum, cumsumFrom, roundHalfEven, List.get_eq_getElem] at hr

/-! ## C2: phase wrap ranges -/

/-- C2 counterexample: the claimed half-open range `[-0.5, 0.5)` fails —
with `f0 = [sr/2]` the accumulated phase is exactly `1/2`, and
`torch.round` (ties to even) leaves it at `1/2`, which is not below
`1/2`. -/
theorem wrappedPhase_halfOpen_counterexample :
    ¬ (∀ q ∈ combSubWrappedPhase 2 [1] none, -(1/2) ≤ q ∧ q < 1/2) := by
  intro h
  have e : combSubWrappedPhase 2 [1] none = [1/2] := by
    norm_num [combSubWrappedPhase, cumsum, cumsumFrom, roundHalfEven]
  rw [e] at h
  have := (h (1/2) (by simp)).2
  norm_num at this

/-- C2 as amended: the round-wrapped phase of `CombSubMinimumNoisedPhase`
lies in the closed interval `[-1/2, 1/2]` (both endpoints are reachable
through the ties-to-even rounding), and the floor-wrapped phase of
`NMPSFHiFi` lies in `[0, 1)`, for every F0 sequence and optional initial
phase. -/
theorem wrappedPhase_range (sr : ℚ) (f0 : List ℚ) (ip : Option ℚ) :
    (∀ q ∈ combSubWrappedPhase sr f0 ip, -(1/2) ≤ q ∧ q ≤ 1/2) ∧
    (∀ q ∈ nmpsfWrappedPhase sr f0 ip, 0 ≤ q ∧ q < 1) := by
  constructor
  · intro q hq
    cases ip with
    | none =>
      simp [combSubWrappedPhase] at hq
      obtain ⟨v, hv, rfl⟩ := hq
      exact roundHalfEven_bounds v
    | some p =>
      simp [combSubWrappedPhase] at hq
      obtain ⟨v, hv, rfl⟩ := hq
      exact roundHalfEven_bounds _
  · intro q hq
    have hb : ∀ v : ℚ, 0 ≤ v - (⌊v⌋ : ℚ) ∧ v - (⌊v⌋ : ℚ) < 1 := by
      intro v
      constructor
      · have := Int.floor_le v; linarith
      · have := Int.lt_floor_add_one v; linarith
    cases ip with
    | none =>
      simp [nmpsfWrappedPhase] at hq
      obtain ⟨v, hv, rfl⟩ := hq
      exact hb v
    | some p =>
      simp [nmpsfWrappedPhase] at hq
      obtain ⟨v, hv, rfl⟩ := hq
      exact hb _

/-- C2 witness: both ranges at `sr = 2`, `f0 = [1]`, no initial phase,
where the wrapped value is `1/2` in both variants. -/
theorem wrappedPhase_range_witness :
    (-(1/2) ≤ (1/2 : ℚ) ∧ (1/2 : ℚ) ≤ 1/2) ∧
    (0 ≤ (1/2 : ℚ) ∧ (1/2 : ℚ) < 1) := by
  have T := wrappedPhase_range 2 [1] none
  constructor
  · refine T.1 (1/2) ?_
    have e : combSubWrappedPhase 2 [1] none = [1/2] := by
      norm_num [combSubWrappedPhase, cumsum, cumsumFrom, roundHalfEven]
    rw [e]; simp
  · refine T.2 (1/2) ?_
    have e : nmpsfWrappedPhase 2 [1] none = [1/2] := by
      norm_num [nmpsfWrappedPhase, cumsum, cumsumFrom]
    rw [e]; simp

/-! ## C3: hop lengths and filter-frame coverage -/

/-- C3: the long-window STFT path uses hop `block_size/4` and the
short-window pass uses hop `win_length/16` (`win_length//4//4`); and for
every frame count `n ≥ 1` the reshaped-and-extended predicted filter has
`4n + 1` frames, exactly the number of centered STFT analysis frames of
a length-`n*block_size` excitation at hop `block_size/4`, so the one
appended copy of the final filter covers the one trailing STFT frame. -/
theorem stft_hops_and_filter_frames (bs wl n : ℕ) (hbs4 : 4 ∣ bs)
    (hbs : 0 < bs) (hwl2 : 2 ∣ wl) (hn : 1 ≤ n) :
    hopLong bs = bs / 4 ∧
    hopShort wl = wl / 16 ∧
    (∀ (cexpF : ℚ → ℚ → ℚ × ℚ) (mag phs : List ℚ),
      mag.length = n * (predFilterSize wl * 4) → phs.length = mag.length →
      (buildPredFilter cexpF wl mag phs).length = 4 * n + 1) ∧
    stftNumFrames (n * bs) wl (hopLong bs) = 4 * n + 1 := by
  have hps : 0 < predFilterSize wl := by unfold predFilterSize; omega
  refine ⟨rfl, ?_, ?_, ?_⟩
  · unfold hopShort
    rw [Nat.div_div_eq_div_mul]
  · intro cexpF mag phs hm hp
    have hzl : (List.zipWith cexpF mag phs).length =
        n * (predFilterSize wl * 4) := by
      rw [List.length_zipWith, hm, hp, hm]
      omega
    have hrows : (chunkRows (predFilterSize wl)
        (List.zipWith cexpF mag phs)).length = 4 * n := by
      unfold chunkRows
      rw [List.length_map, List.length_range, hzl]
      rw [show n * (predFilterSize wl * 4) = (4 * n) * predFilterSize wl
        by ring]
      exact Nat.mul_div_cancel _ hps
    unfold buildPredFilter appendLastRow
    rw [List.length_append, hrows, List.length_drop, hrows]
    omega
  · unfold stftNumFrames hopLong
    obtain ⟨k, hk⟩ := hbs4
    obtain ⟨m, hm⟩ := hwl2
    subst hk hm
    have hk0 : 0 < k := by omega
    rw [show 2 * (2 * m / 2) = 2 * m by omega]
    rw [show n * (4 * k) + 2 * m - 2 * m = n * (4 * k) by omega]
    rw [show 4 * k / 4 = k by omega]
    rw [show n * (4 * k) = (4 * n) * k by ring]
    rw [Nat.mul_div_cancel _ hk0]

/-- C3 witness: the hop lengths and frame counts at
`block_size = win_length = 4`, one frame. -/
theorem stft_hops_and_filter_frames_witness :
    hopLong 4 = 1 ∧ hopShort 4 = 0 ∧
    (buildPredFilter cexpOne 4 (List.replicate 12 0)
      (List.replicate 12 0)).length = 5 ∧
    stftNumFrames 4 4 (hopLong 4) = 5 := by
  have T := stft_hops_and_filter_frames 4 4 1 (by norm_num) (by norm_num)
    (by norm_num) (by norm_num)
  refine ⟨T.1, by rw [T.2.1], ?_, by rw [T.2.2.2]⟩
  have := T.2.2.1 cexpOne (List.replicate 12 0) (List.replicate 12 0)
    (by simp [predFilterSize]) (by simp)
  rw [this]

/-! ## C4: causal cepstrum fold -/

/-- C4: the sequential in-place cepstrum operations of the Minimum-Phase
Filter Builder amount, index-wise, to: negate the imaginary part at bin
0, double the real part and negate-double the imaginary part at bins
`1..N/2-1`, negate the imaginary part at the Nyquist bin `N/2`, and zero
every bin beyond `N/2`; and the additive guard applied to the spectrum
before the log is exactly `1e-7`. -/
theorem minphase_causal_fold (N : ℕ) (c : ℕ → ℚ × ℚ) (i : ℕ) (hN : 2 ≤ N) :
    causalCepsFold N c i = (if i = 0 then ((c i).1, -(c i).2)
      else if i < N / 2 then (2 * (c i).1, -2 * (c i).2)
      else if i = N / 2 then ((c i).1, -(c i).2)
      else (0, 0)) ∧
    cepsLogEps = 1 / 10000000 ∧
    guardedLogInput c i = ((c i).1 + 1 / 10000000, (c i).2) := by
  refine ⟨?_, rfl, rfl⟩
  have hN2 : 1 ≤ N / 2 := by omega
  unfold causalCepsFold cepsZeroTail cepsNegImagNyquist cepsNegDoubleImagMid
    cepsDoubleRealMid cepsNegImagZero
  split_ifs <;> simp_all <;> omega

/-- C4 witness: the fold at `N = 4`, constant cepstrum `(1, 2)`, at the
doubled mid bin `i = 1`. -/
theorem minphase_causal_fold_witness :
    causalCepsFold 4 (fun _ => ((1 : ℚ), (2 : ℚ))) 1 = (2, -4) ∧
    cepsLogEps = 1 / 10000000 ∧
    guardedLogInput (fun _ => ((1 : ℚ), (2 : ℚ))) 1 =
      (1 + 1 / 10000000, 2) := by
  have T := minphase_causal_fold 4 (fun _ => ((1 : ℚ), (2 : ℚ))) 1
    (by norm_num)
  refine ⟨?_, T.2.1, T.2.2⟩
  rw [T.1]
  norm_num

/-! ## C5: static noise buffer -/

theorem lt_div_succ_mul (a b : ℕ) (hb : 0 < b) : a < (a / b + 1) * b := by
  have h1 := Nat.div_add_mod a b
  have h2 := Nat.mod_lt a hb
  calc a < b * (a / b) + b := by linarith
    _ = (a / b + 1) * b := by ring

theorem flatten_replicate_getElem? (buf : List ℚ) (k i : ℕ)
    (h : i < k * buf.length) :
    (List.flatten (List.replicate k buf))[i]? = buf[i % buf.length]? := by
  induction k generalizing i with
  | zero => simp at h
  | succ m ih =>
    have hb : 0 < buf.length := by
      rcases Nat.eq_zero_or_pos buf.length with h0 | h0
      · rw [h0] at h; simp at h
      · exact h0
    rw [List.replicate_succ, List.flatten_cons, List.getElem?_append]
    rcases Nat.lt_or_ge i buf.length with hlt | hge
    · rw [if_pos hlt, Nat.mod_eq_of_lt hlt]
    · rw [if_neg (by omega)]
      have hi2 : i - buf.length < m * buf.length := by
        have : (m + 1) * buf.length = m * buf.length + buf.length := by ring
        omega
      rw [ih _ hi2]
      rw [Nat.mod_eq_sub_mod hge]

theorem tileToLength_getElem? (buf : List ℚ) (hb : 0 < buf.length)
    (len i : ℕ) (hi : i < len) :
    (tileToLength buf len)[i]? = buf[i % buf.length]? := by
  unfold tileToLength
  rw [List.getElem?_take_of_lt hi]
  exact flatten_replicate_getElem? buf _ i
    (lt_trans hi (lt_div_succ_mul len buf.length hb))

/-- C5: the static noise buffer has length `win_length * 127`, all its
elements lie in `[-1, 1]` (from the `torch.rand` range `[0, 1)`), it is
a function of the seed alone (equal seeds give equal buffers for the
same library stream), and the per-call noise excitation of length `len`
is the periodic extension of the buffer truncated to `len`: sample `i`
equals buffer sample `i mod (win_length * 127)`. -/
theorem static_noise_buffer_spec (stream : ℕ → ℕ → ℚ) (seed len wl : ℕ)
    (hwl : 0 < wl)
    (hstream : ∀ s i, 0 ≤ stream s i ∧ stream s i < 1) :
    (staticNoiseBuffer stream seed wl).length = wl * 127 ∧
    (∀ v ∈ staticNoiseBuffer stream seed wl, -1 ≤ v ∧ v ≤ 1) ∧
    (∀ seed2, seed = seed2 →
      staticNoiseBuffer stream seed wl = staticNoiseBuffer stream seed2 wl) ∧
    (∀ i, i < len →
      (tileToLength (staticNoiseBuffer stream seed wl) len)[i]? =
        (staticNoiseBuffer stream seed wl)[i % (wl * 127)]?) := by
  have hlen : (staticNoiseBuffer stream seed wl).length = wl * 127 := by
    simp [staticNoiseBuffer]
  refine ⟨hlen, ?_, ?_, ?_⟩
  · intro v hv
    simp [staticNoiseBuffer] at hv
    obtain ⟨j, hj, rfl⟩ := hv
    obtain ⟨h0, h1⟩ := hstream seed j
    constructor <;> linarith
  · intro seed2 h
    rw [h]
  · intro i hi
    have := tileToLength_getElem? (staticNoiseBuffer stream seed wl)
      (by rw [hlen]; omega) len i hi
    rw [this, hlen]

/-- C5 witness: the buffer facts at `wl = 1`, a constant stream `1/2`,
seed 3, tiled to length 300 at sample 200. -/
theorem static_noise_buffer_spec_witness :
    (staticNoiseBuffer (fun _ _ => (1 : ℚ)/2) 3 1).length = 127 ∧
    (tileToLength (staticNoiseBuffer (fun _ _ => (1 : ℚ)/2) 3 1) 300)[200]? =
      (staticNoiseBuffer (fun _ _ => (1 : ℚ)/2) 3 1)[200 % 127]? := by
  have T := static_noise_buffer_spec (fun _ _ => (1 : ℚ)/2) 3 300 1
    (by norm_num) (by intro s i; norm_num)
  exact ⟨T.1, T.2.2.2 200 (by norm_num)⟩

/-! ## C6: envelope modulator -/

theorem upsampleRepeat_getElem? (ds : ℕ) (hds : 0 < ds) (l : List ℚ)
    (i : ℕ) (h : i < ds * l.length) :
    (upsampleRepeat ds l)[i]? = l[i / ds]? := by
  induction l generalizing i with
  | nil => simp at h
  | cons a t ih =>
    unfold upsampleRepeat
    rw [List.map_cons, List.flatten_cons, List.getElem?_append]
    rcases Nat.lt_or_ge i ds with hlt | hge
    · rw [if_pos (by simpa using hlt)]
      rw [Nat.div_eq_of_lt hlt]
      simp [List.getElem?_replicate, hlt]
    · rw [if_neg (by simpa using Nat.not_lt.mpr hge)]
      have hrec := ih (i - ds) (by
        have : ds * (t.length + 1) = ds * t.length + ds := by ring
        simp at h
        omega)
      rw [List.length_replicate]
      unfold upsampleRepeat at hrec
      rw [hrec]
      rw [Nat.div_eq_sub_div hds hge]
      simp

/-- C6 counterexample: the harmonic-envelope path of `NMPSFHiFi` does
not clamp — the block-rate envelope value `2` passes through its
upsampling unchanged, outside `[-1, 1]` (it is moreover applied by
linear interpolation after the inverse STFT, not by nearest-neighbor
repetition before filtering). -/
theorem envelope_clamp_counterexample :
    nmpsfHarmonicEnvUpsample 1 [2] = [2] ∧ ¬ ((2 : ℚ) ≤ 1) := by
  constructor
  · norm_num [nmpsfHarmonicEnvUpsample, upsampleRepeat, List.range_succ]
  · norm_num

/-- C6 as amended: in `CombSubMinimumNoisedPhase` (harmonic and noise
paths alike), the predicted envelope is clamped into `[-1, 1]`,
upsampled by nearest-neighbor repetition (`ds` copies of each value, so
sample `i` holds the clamped block value `i / ds`), and multiplied
elementwise onto the time-domain excitation before its STFT; the
`NMPSFHiFi` harmonic envelope instead skips the clamp, uses linear
interpolation and is applied after the inverse STFT. -/
theorem combsub_envelope_spec (ds : ℕ) (hds : 0 < ds) (env exc : List ℚ) :
    (∀ v ∈ upsampleRepeat ds (env.map clampUnit), -1 ≤ v ∧ v ≤ 1) ∧
    (∀ i, i < ds * env.length →
      (upsampleRepeat ds (env.map clampUnit))[i]? =
        (env[i / ds]?).map clampUnit) ∧
    combSubEnvApply ds env exc =
      List.zipWith (· * ·) exc (upsampleRepeat ds (env.map clampUnit)) := by
  refine ⟨?_, ?_, rfl⟩
  · intro v hv
    simp [upsampleRepeat, List.mem_flatten, List.mem_map,
      List.mem_replicate] at hv
    obtain ⟨e, he, -, rfl⟩ := hv
    unfold clampUnit
    constructor
    · exact le_min (by norm_num) (le_max_left _ _)
    · exact min_le_left _ _
  · intro i hi
    rw [upsampleRepeat_getElem? ds hds _ i (by simpa using hi)]
    simp [List.getElem?_map]

/-- C6 witness: the clamp bound at an upsampled member, the
nearest-neighbor index rule at sample 3, and the elementwise application
for `ds = 2`, `env = [2, -3]`, excitation `[5, 7, 11, 13]`. -/
theorem combsub_envelope_spec_witness :
    ((-1 : ℚ) ≤ 1 ∧ (1 : ℚ) ≤ 1) ∧
    (upsampleRepeat 2 ([2, -3].map clampUnit))[3]? =
      (([2, -3] : List ℚ)[3 / 2]?).map clampUnit ∧
    combSubEnvApply 2 [2, -3] [5, 7, 11, 13] =
      List.zipWith (· * ·) [5, 7, 11, 13]
        (upsampleRepeat 2 ([2, -3].map clampUnit)) := by
  have T := combsub_envelope_spec 2 (by norm_num) [2, -3] [5, 7, 11, 13]
  refine ⟨?_, T.2.1 3 (by norm_num), T.2.2⟩
  refine T.1 1 ?_
  norm_num [upsampleRepeat, clampUnit, List.mem_flatten]

/-! ## C7: split-map widths -/

theorem lookup_append (l₁ l₂ : List (String × ℕ)) (k : String) :
    (l₁ ++ l₂).lookup k = (l₁.lookup k).or (l₂.lookup k) := by
  induction l₁ with
  | nil => simp [List.lookup]
  | cons p t ih =>
    rcases p with ⟨a, b⟩
    simp only [List.cons_append, List.lookup]
    by_cases h : k == a
    · simp [h]
    · simp only [h]
      exact ih

theorem lookup_ite (b : Bool) (L : List (String × ℕ)) (k : String) :
    (if b then L else []).lookup k = if b then L.lookup k else none := by
  cases b <;> simp [List.lookup]

/-- C7 counterexample: in the split map actually handed to the
predictor, `harmonic_magnitude` is declared with per-frame width
`pred_filter_size * 4` (e.g. `20` at `win_length = 8`), not
`pred_filter_size` (`5`) as claimed. -/
theorem split_map_width_counterexample :
    (splitMap splitMapSampleConfig).lookup ("harmonic_magnitude") =
      some 20 ∧
    predFilterSize splitMapSampleConfig.winLength = 5 ∧ (20 : ℕ) ≠ 5 := by
  refine ⟨?_, by norm_num [predFilterSize, splitMapSampleConfig],
    by norm_num⟩
  simp [splitMap, splitMapSampleConfig, List.lookup, predFilterSize]

/-- C7 as amended: the four full-band filter tensors are declared in the
split map with per-frame width `pred_filter_size * 4` (four analysis
frames per block), and every envelope tensor with width `block_size`
divided by its downsample factor. -/
theorem split_map_widths (c : CombSubConfig) :
    (splitMap c).lookup ("harmonic_magnitude") =
      some (predFilterSize c.winLength * 4) ∧
    (splitMap c).lookup ("harmonic_phase") =
      some (predFilterSize c.winLength * 4) ∧
    (splitMap c).lookup ("noise_magnitude") =
      some (predFilterSize c.winLength * 4) ∧
    (splitMap c).lookup ("noise_phase") =
      some (predFilterSize c.winLength * 4) ∧
    (c.useNoise = true → c.useNoiseEnv = true →
      (splitMap c).lookup ("noise_envelope_magnitude") =
        some (c.blockSize / c.noiseEnvSizeDownsamples)) ∧
    (c.useHarmonicEnv = true →
      (splitMap c).lookup ("harmonic_envelope_magnitude") =
        some (c.blockSize / c.harmonicEnvSizeDownsamples)) ∧
    (c.useF0Offset = true →
      (splitMap c).lookup ("f0_offset") =
        some (c.blockSize / c.f0OffsetSizeDownsamples)) ∧
    (c.addNoise = true → c.useAddNoiseEnv = true →
      (splitMap c).lookup ("add_noise_envelope_magnitude") =
        some (c.blockSize / c.noiseEnvSizeDownsamples)) := by
  refine ⟨?_, ?_, ?_, ?_, ?_, ?_, ?_, ?_⟩ <;>
    intros <;>
    simp_all [splitMap, lookup_append, lookup_ite, List.lookup]

/-- C7 witness: the widths at the sample configuration
(`win_length = 8`, `block_size = 512`, noise envelope on). -/
theorem split_map_widths_witness :
    (splitMap splitMapSampleConfig).lookup ("noise_phase") =
      some (predFilterSize splitMapSampleConfig.winLength * 4) ∧
    (splitMap splitMapSampleConfig).lookup ("noise_envelope_magnitude") =
      some (splitMapSampleConfig.blockSize /
        splitMapSampleConfig.noiseEnvSizeDownsamples) := by
  have T := split_map_widths splitMapSampleConfig
  exact ⟨T.2.2.2.1, T.2.2.2.2.1 rfl rfl⟩

/-! ## C8: determinism of `forward` -/

theorem zipWith_mul_all_ones (l μ : List ℚ) (h : ∀ m ∈ μ, m = 1) :
    List.zipWith (· * ·) l μ = l.take μ.length := by
  induction l generalizing μ with
  | nil => simp
  | cons a t ih =>
    cases μ with
    | nil => simp
    | cons m ms =>
      have hm : m = 1 := h m (by simp)
      have hms : ∀ v ∈ ms, v = 1 := fun v hv => h v (by simp [hv])
      simp [hm, ih ms hms]

set_option maxRecDepth 10000 in
set_option maxHeartbeats 4000000 in
/-- C8 counterexample: with a nonzero configured `f0_input_variance` the
forward pass multiplies F0 by the random factor
`2^(-v/12) * 2^(randn*v/12)` drawn from the ambient RNG on every call
(lines 402-403), so two calls on identical inputs can return different
waveforms.  Here the two calls realize the per-sample factors `1`
(draw `randn = 1`) and `1/2` (draw `randn = 1 - 12/v`), shifting the
combtooth impulse and hence the output. -/
theorem forward_jitter_counterexample :
    combSubForward toyConfig rfft4 irfft4 cexpOne hann4 toyMinphase []
      toyPredict [1] (List.replicate 4 1) none ≠
    combSubForward toyConfig rfft4 irfft4 cexpOne hann4 toyMinphase []
      toyPredict [1] (List.replicate 4 (1/2)) none := by
  have h1 : combSubForward toyConfig rfft4 irfft4 cexpOne hann4 toyMinphase
      [] toyPredict [1] (List.replicate 4 1) none = [0, 1, 0, 0] := by
    norm_num [combSubForward, toyConfig, toyPredict, toyMinphase,
      combSubWrappedPhase, cumsum, cumsumFrom, roundHalfEven,
      upsampleRepeat, combtooth, rollNegOne, hopLong, stftSpec,
      stftWindowedFrames, stftNumFrames, rfft4, irfft4, hann4, cexpOne,
      buildPredFilter, predFilterSize, chunkRows, appendLastRow,
      specMulFrames, specMulStatic, cmulQ, caddQ, combSubSignalSpec,
      istftOLA, List.range_succ, piLit, List.replicate, List.cons_append,
      List.nil_append, List.getElem_cons_succ, List.getElem_cons_zero]
  have h2 : combSubForward toyConfig rfft4 irfft4 cexpOne hann4 toyMinphase
      [] toyPredict [1] (List.replicate 4 (1/2)) none = [0, 0, 0, 1] := by
    norm_num [combSubForward, toyConfig, toyPredict, toyMinphase,
      combSubWrappedPhase, cumsum, cumsumFrom, roundHalfEven,
      upsampleRepeat, combtooth, rollNegOne, hopLong, stftSpec,
      stftWindowedFrames, stftNumFrames, rfft4, irfft4, hann4, cexpOne,
      buildPredFilter, predFilterSize, chunkRows, appendLastRow,
      specMulFrames, specMulStatic, cmulQ, caddQ, combSubSignalSpec,
      istftOLA, List.range_succ, piLit, List.replicate, List.cons_append,
      List.nil_append, List.getElem_cons_succ, List.getElem_cons_zero]
  rw [h1, h2]
  intro h
  simp at h

/-- C8 as amended: `forward` is a deterministic function of its inputs
once the F0-variance jitter factor is degenerate — whenever the realized
per-sample factors of both calls are identically `1` (which is the case
for every draw exactly when `f0_input_variance = 0`), the two calls
return the same waveform for all inputs, configurations and library
kernels. -/
theorem forward_deterministic_without_jitter (cfg : CombSubConfig)
    (rfftF : List ℚ → List (ℚ × ℚ)) (irfftF : List (ℚ × ℚ) → List ℚ)
    (cexpF : ℚ → ℚ → ℚ × ℚ) (window : List ℚ)
    (mp : List (ℚ × ℚ)) (sn : List ℚ)
    (u2c : List ℚ → CombSubCtrls) (f0Frames : List ℚ)
    (ip : Option ℚ) (jm1 jm2 : List ℚ)
    (h1 : ∀ m ∈ jm1, m = 1) (h2 : ∀ m ∈ jm2, m = 1)
    (hlen : jm1.length = jm2.length) :
    combSubForward cfg rfftF irfftF cexpF window mp sn u2c f0Frames jm1 ip =
    combSubForward cfg rfftF irfftF cexpF window mp sn u2c f0Frames jm2 ip := by
  unfold combSubForward
  simp only []
  rw [zipWith_mul_all_ones _ _ h1, zipWith_mul_all_ones _ _ h2, hlen]

/-- C8 witness: the amended determinism at the toy instance with both
jitter lists identically one. -/
theorem forward_deterministic_without_jitter_witness :
    combSubForward toyConfig rfft4 irfft4 cexpOne hann4 toyMinphase []
      toyPredict [1] (List.replicate 4 1) none =
    combSubForward toyConfig rfft4 irfft4 cexpOne hann4 toyMinphase []
      toyPredict [1] (List.replicate 4 1) none :=
  forward_deterministic_without_jitter toyConfig rfft4 irfft4 cexpOne hann4
    toyMinphase [] toyPredict [1] none (List.replicate 4 1)
    (List.replicate 4 1) (by simp) (by simp) rfl

/-! ## C9: `load_model` error handling -/

/-- C9: for any model-type tag other than the two accepted ones,
`load_model` raises a `ValueError` whose message names the offending tag
(never silently constructing a model); and when speaker embedding is
enabled but `spk_info.npz` is absent, it prints a warning and returns
`None` for the speaker info instead of failing. -/
theorem load_model_errors (t : String)
    (h1 : t ≠ ("CombSubMinimumNoisedPhase" : String))
    (h2 : t ≠ ("NMPSFHiFi" : String)) :
    loadModelKind t = .error ((" [x] Unknown Model: " : String) ++ t) ∧
    (∀ k, loadModelKind t ≠ .ok k) ∧
    loadSpkOutcome true false = (true, false) ∧
    loadSpkOutcome false false = (false, false) ∧
    loadSpkOutcome false true = (false, false) := by
  have he : loadModelKind t =
      .error ((" [x] Unknown Model: " : String) ++ t) := by
    unfold loadModelKind
    rw [if_neg h1, if_neg h2]
  refine ⟨he, ?_, rfl, rfl, rfl⟩
  intro k hk
  rw [he] at hk
  exact Except.noConfusion hk

/-- C9 witness: the dispatch at the unknown tag `"Foo"`. -/
theorem load_model_errors_witness :
    loadModelKind ("Foo") =
      .error ((" [x] Unknown Model: " : String) ++ ("Foo")) ∧
    loadSpkOutcome true false = (true, false) := by
  have T := load_model_errors ("Foo") (by decide) (by decide)
  exact ⟨T.1, T.2.2.1⟩

/-! ## C10: the export variant synthesizes the noise branch only -/

/-- C10: in `CombSubMinimumNoisedPhase_export.forward` the harmonic
branch is computed (the combtooth STFT multiplied by the static
minimum-phase filter and the predicted harmonic filter) but never added
into the spectrum handed to the inverse transform, so the returned
waveform is independent of the harmonic filter controls: two predictors
agreeing on every non-harmonic control give identical outputs; whereas
the non-export `forward` sums the harmonic and noise spectrograms before
its inverse STFT. -/
theorem export_forward_noise_only
    (stftT : List ℚ → List (List (ℚ × ℚ)))
    (istftT : List (List (ℚ × ℚ)) → List ℚ)
    (expF cosF sinF : ℚ → ℚ)
    (sr : ℚ) (bs wl : ℕ) (uhe une : Bool) (hds nds : ℕ)
    (mp : List (ℚ × ℚ)) (sn : List ℚ)
    (f0Frames : List ℚ)
    (u2c1 u2c2 : List ℚ → ExportCtrls)
    (hsame : ∀ p, (u2c1 p).noise_magnitude = (u2c2 p).noise_magnitude ∧
      (u2c1 p).noise_phase = (u2c2 p).noise_phase ∧
      (u2c1 p).noise_envelope_magnitude = (u2c2 p).noise_envelope_magnitude ∧
      (u2c1 p).harmonic_envelope_magnitude =
        (u2c2 p).harmonic_envelope_magnitude) :
    combSubExportForward stftT istftT expF cosF sinF sr bs wl uhe une hds nds
      mp sn u2c1 f0Frames =
    combSubExportForward stftT istftT expF cosF sinF sr bs wl uhe une hds nds
      mp sn u2c2 f0Frames ∧
    (∀ hSpec nSpec,
      combSubSignalSpec true hSpec (some nSpec) = specAdd hSpec nSpec) := by
  constructor
  · unfold combSubExportForward
    simp only []
    obtain ⟨e1, e2, e3, e4⟩ := hsame
      ((List.range (((combSubWrappedPhase sr (upsampleRepeat bs f0Frames)
        none)).length / bs)).map
        (fun t => 2 * piLit * (((combSubWrappedPhase sr
          (upsampleRepeat bs f0Frames) none)).get? (t * bs)).getD 0))
    rw [e1, e2, e3, e4]
  · intro hSpec nSpec
    rfl

/-- C10 witness: the independence at a concrete instance — two
predictors differing only in their harmonic magnitude/phase give the
same output. -/
theorem export_forward_noise_only_witness :
    combSubExportForward (fun _ => []) (fun _ => []) id id id 4 4 4
      false false 4 4 toyMinphase []
      (fun _ => ⟨List.replicate 12 0, List.replicate 12 0, [], [], [], []⟩)
      [1] =
    combSubExportForward (fun _ => []) (fun _ => []) id id id 4 4 4
      false false 4 4 toyMinphase []
      (fun _ => ⟨List.replicate 12 1, List.replicate 12 1, [], [], [], []⟩)
      [1] ∧
    combSubSignalSpec true [[((1 : ℚ), (0 : ℚ))]] (some [[(2, 0)]]) =
      specAdd [[(1, 0)]] [[(2, 0)]] := by
  have T := export_forward_noise_only (fun _ => []) (fun _ => []) id id id
    4 4 4 false false 4 4 toyMinphase [] [1]
    (fun _ => ⟨List.replicate 12 0, List.replicate 12 0, [], [], [], []⟩)
    (fun _ => ⟨List.replicate 12 1, List.replicate 12 1, [], [], [], []⟩)
    (by intro p; exact ⟨rfl, rfl, rfl, rfl⟩)
  exact ⟨T.1, T.2 [[(1, 0)]] [[(2, 0)]]⟩

end Vocoder
